import Mathlib

/-!
Shallow embedding of the rusty-pic build pipeline (Vite plugin `generateBundle`
pass and the `RustyPic` compression wrapper), together with proofs about the
pipeline invariants.  Machine integers of the source are modelled as `Nat`
(sizes are byte counts, never negative); JavaScript exceptions are modelled by
`Except String`; raw asset bytes (`Buffer` / `Uint8Array`) are modelled as
`List Nat`; the JavaScript floating-point ratio computations of
`selectOptimalQuality` are modelled over `ℚ` with exact division.
-/

namespace RustyPic

/-! ## Output-format resolution (plugin `generateBundle`, effectiveFormat) -/

/-- ASCII lower-casing of one character, as `String.prototype.toLowerCase`
acts on the ASCII letters occurring in file extensions and format names. -/
def lcChar (c : Char) : Char :=
  if 65 ≤ c.toNat ∧ c.toNat ≤ 90 then Char.ofNat (c.toNat + 32) else c

/-- `toLowerCase` on a whole string (ASCII range). -/
def lowerStr (s : String) : String :=
  String.mk (s.data.map lcChar)

/-- Worker for `splitOnDot`, accumulating the current segment reversed. -/
def splitOnDotAux : List Char → List Char → List (List Char)
  | [], acc => [acc.reverse]
  | c :: rest, acc =>
    if c = '.' then acc.reverse :: splitOnDotAux rest []
    else splitOnDotAux rest (c :: acc)

/-- `fileName.split('.')` of JavaScript: the dot-separated segments, always at
least one (possibly empty) segment. -/
def splitOnDot (l : List Char) : List (List Char) :=
  splitOnDotAux l []

/-- Embeds `(fileName.split('.').pop() || '').toLowerCase()`: the lower-cased
last dot-separated component of a file name. -/
def extractExt (name : String) : String :=
  lowerStr (String.mk ((splitOnDot name.data).getLastD []))

/-- Embeds the `effectiveFormat` IIFE of `generateBundle`: `'auto'` resolves to
the original extension; with transcoding disabled a differing requested format
falls back to the original extension; otherwise the requested format
(lower-cased) is used. -/
def effectiveFormat (format : String) (transcode : Bool) (origExt : String) : String :=
  if format = "auto" then origExt
  else if transcode = false ∧ lowerStr format ≠ origExt then origExt
  else lowerStr format

/-- Embeds the rename-registration guard
`if (transcode && effectiveFormat !== currentExt)` of `generateBundle`. -/
def renameNeeded (transcode : Bool) (effFmt currentExt : String) : Bool :=
  transcode && (effFmt != currentExt)

/-! ## Cache key derivation (plugin `getCacheKey` / `getCachePath`) -/

/-- Optional resize configuration of the plugin options. -/
structure ResizeCfg where
  maxWidth : Option Nat
  maxHeight : Option Nat
  fit : Option String
deriving DecidableEq

/-- Optimize flags of the plugin options (defaults
`{colors:true, progressive:false, lossless:false}`). -/
structure OptimizeCfg where
  colors : Bool
  progressive : Bool
  lossless : Bool
deriving DecidableEq

/-- The plugin options that `getCacheKey` serializes:
`JSON.stringify({ quality, format, resize, optimize })`. -/
structure PluginOpts where
  quality : Nat
  format : String
  resize : Option ResizeCfg
  optimize : OptimizeCfg
deriving DecidableEq

/-- JSON rendering of a `Bool`. -/
def jsonBool (b : Bool) : String :=
  if b then "true" else "false"

/-- JSON rendering of a (quote-free) string value. -/
def jsonStr (s : String) : String :=
  "\"" ++ s ++ "\""

/-- `JSON.stringify` of a resize configuration; `undefined` fields are
omitted, as `JSON.stringify` does. -/
def serializeResize (r : ResizeCfg) : String :=
  let fields :=
    (match r.maxWidth with
     | some w => ["\"maxWidth\":" ++ toString w]
     | none => []) ++
    (match r.maxHeight with
     | some h => ["\"maxHeight\":" ++ toString h]
     | none => []) ++
    (match r.fit with
     | some f => ["\"fit\":" ++ jsonStr f]
     | none => [])
  "\x7b" ++ String.intercalate "," fields ++ "\x7d"

/-- `JSON.stringify` of the optimize flags. -/
def serializeOptimize (o : OptimizeCfg) : String :=
  "\x7b\"colors\":" ++ jsonBool o.colors ++
  ",\"progressive\":" ++ jsonBool o.progressive ++
  ",\"lossless\":" ++ jsonBool o.lossless ++ "\x7d"

/-- Embeds `JSON.stringify({ quality, format, resize, optimize })` as used by
`getCacheKey`; an `undefined` (absent) `resize` key is omitted. -/
def serializeOptions (o : PluginOpts) : String :=
  "\x7b\"quality\":" ++ toString o.quality ++
  ",\"format\":" ++ jsonStr o.format ++
  (match o.resize with
   | none => ""
   | some r => ",\"resize\":" ++ serializeResize r) ++
  ",\"optimize\":" ++ serializeOptimize o.optimize ++ "\x7d"

/-- Embeds the byte stream fed to the MD5 digest in `getCacheKey`:
`hash.update(content); hash.update(JSON.stringify({quality,format,resize,optimize}))`.
The cache key is the digest of exactly this stream; we model the digest
preimage.  The `filePath` parameter is present in the source signature and,
as in the source, unused. -/
def getCacheKeyInput (filePath : String) (content : List Nat) (o : PluginOpts) : List Nat :=
  content ++ ((serializeOptions o).toList.map Char.toNat)

/-- Embeds `getCachePath`: `join(cache.dir, cacheKey + '.' + format)`, where the
format argument passed by `generateBundle` is the effective format. -/
def getCachePath (dir keyHex fmt : String) : String :=
  dir ++ "/" ++ keyHex ++ "." ++ fmt

/-! ## Initial-quality selection (`RustyPic.selectOptimalQuality`) -/

/-- Embeds `RustyPic.selectOptimalQuality`.  A `targetSize` of `0` models the
JavaScript falsy case (`undefined` or `0`), in which the complexity-based
branch runs.  When the target is set and the source size is `0`, the
JavaScript ratio is `Infinity`, which exceeds every band bound, so quality 90
is returned; otherwise the ratio `targetSize / size` is exact division in `ℚ`. -/
def selectOptimalQuality (size targetSize : Nat) (complexity : ℚ) : Nat :=
  if targetSize ≠ 0 then
    if size = 0 then 90
    else
      let ratio : ℚ := (targetSize : ℚ) / (size : ℚ)
      if ratio > 4/5 then 90
      else if ratio > 1/2 then 75
      else if ratio > 3/10 then 60
      else 45
  else
    if complexity > 7/10 then 85
    else if complexity > 2/5 then 80
    else 75

/-! ## Per-asset processing in `generateBundle`

For one image asset the loop body of `generateBundle` (1) consults the cache —
`existsSync(cachedPath)` followed by `await readFile(cachedPath)`, both outside
any `try` — and on a hit whose byte count is `<=` the original's replaces the
stored source and moves on; (2) otherwise runs, inside a per-asset
`try`/`catch`, the compression attempt, the `result.data.length <
originalBuffer.length` size gate, rename registration and the cache write; the
`catch` only logs.  The environment is an input: `cacheRead` is `none` when the
cache is disabled or the cached path does not exist, `some (.ok c)` when the
cached file holds bytes `c`, and `some (.error e)` when the file exists but
reading it throws; `comp` is the outcome of `rustyPic.compress`; `write` the
outcome of the cache write. -/

/-- Outcome of the `try` block of one asset, given the stored source at entry
(`original`), the compression outcome and the cache-write outcome.  An
exception thrown inside the block is caught by the per-asset `catch`, which
keeps whatever the stored source was at the throw site. -/
def freshCompress (original : List Nat) (comp : Except String (List Nat))
    (write : Except String Unit) : List Nat :=
  match comp with
  | .error _ => original
  | .ok r =>
    if r.length < original.length then
      match write with
      | .error _ => r
      | .ok _ => r
    else original

/-- The loop body of `generateBundle` for one asset: the cache probe happens
before (outside) the per-asset `try`/`catch`, so a failed cache read escapes
as an error of the whole pass; everything else is absorbed. -/
def processAsset (original : List Nat) (cacheRead : Option (Except String (List Nat)))
    (comp : Except String (List Nat)) (write : Except String Unit) :
    Except String (List Nat) :=
  match cacheRead with
  | some (.error e) => .error e
  | some (.ok c) =>
    if c.length ≤ original.length then .ok c
    else .ok (freshCompress original comp write)
  | none => .ok (freshCompress original comp write)

/-- Decidable guard: the cache probe for this asset does not throw. -/
def readOk : Option (Except String (List Nat)) → Bool
  | some (.error _) => false
  | _ => true

/-- A successful cache probe, forgetting the error case. -/
def cacheHit : Option (Except String (List Nat)) → Option (List Nat)
  | some (.ok c) => some c
  | _ => none

/-- The bytes an asset ends with when its cache probe did not throw: the
accepted cache hit, or the outcome of the fresh-compression `try` block. -/
def assetBytesAfter (original : List Nat) (hit : Option (List Nat))
    (comp : Except String (List Nat)) (write : Except String Unit) : List Nat :=
  match hit with
  | some c =>
    if c.length ≤ original.length then c
    else freshCompress original comp write
  | none => freshCompress original comp write

/-- The per-asset inputs of one `generateBundle` pass. -/
structure AssetIn where
  original : List Nat
  cacheRead : Option (Except String (List Nat))
  comp : Except String (List Nat)
  write : Except String Unit

/-- The whole `generateBundle` loop over the image assets of the bundle: each
asset is processed in order; an uncaught exception (only the cache read can
throw one) aborts the pass. -/
def generateBundlePass : List AssetIn → Except String (List (List Nat))
  | [] => .ok []
  | a :: rest =>
    match processAsset a.original a.cacheRead a.comp a.write with
    | .error e => .error e
    | .ok s =>
      match generateBundlePass rest with
      | .error e => .error e
      | .ok ss => .ok (s :: ss)

/-! ## Size-budget search (`RustyPic.iterativeCompress` / `smartCompress`)

`compress` is abstracted as an oracle from the quality used (the only option
that varies between attempts) to the compressed size (`sizeOf`, total, for runs
in which every attempt succeeds) or to an `Except` outcome (`oracle`, when
attempts may throw).  `Math.max(10, quality - 15)` coincides with
`max 10 (q - 15)` over `Nat`. -/

/-- The quality used by the next retry: `Math.max(10, quality - 15)`. -/
def nextQuality (q : Nat) : Nat :=
  max 10 (q - 15)

/-- The qualities attempted by the retry loop
`for (i = 0; i < 5 && result.compressedSize > targetSize; i++)` of
`iterativeCompress`, given the quality of the last attempt so far. -/
def retryQualities (sizeOf : Nat → Nat) (target : Nat) : Nat → Nat → List Nat
  | 0, _ => []
  | fuel + 1, q =>
    if sizeOf q ≤ target then []
    else nextQuality q :: retryQualities sizeOf target fuel (nextQuality q)

/-- All qualities attempted by `iterativeCompress`: the initial attempt at
`baseOptions.quality`, then at most 5 retries. -/
def iterAttempts (sizeOf : Nat → Nat) (q0 target : Nat) : List Nat :=
  q0 :: retryQualities sizeOf target 5 q0

/-- `iterativeCompress` for runs in which every attempt succeeds: the returned
result is the one of the last attempt made. -/
def iterativeCompress (sizeOf : Nat → Nat) (q0 target : Nat) : Nat :=
  sizeOf ((iterAttempts sizeOf q0 target).getLastD q0)

/-- `smartCompress` for runs in which every attempt succeeds, specialised to
the analysis the source computes (`analysis.size` is the input byte count,
`analysis.complexity` is the constant `0.5`): pick the initial quality, make
one attempt, and if a (truthy) target is missed run `iterativeCompress` with
the same base options. -/
def smartCompressSize (sizeOf : Nat → Nat) (srcSize target : Nat) : Nat :=
  let q0 := selectOptimalQuality srcSize target (1/2)
  let r := sizeOf q0
  if target ≠ 0 ∧ r > target then iterativeCompress sizeOf q0 target else r

/-- The retry loop of `iterativeCompress` when attempts may throw: `q` is the
quality and `r` the size of the last attempt; a thrown attempt propagates. -/
def iterLoopE (oracle : Nat → Except String Nat) (target : Nat) :
    Nat → Nat → Nat → Except String Nat
  | 0, _, r => .ok r
  | fuel + 1, q, r =>
    if r > target then
      match oracle (nextQuality q) with
      | .error e => .error e
      | .ok r2 => iterLoopE oracle target fuel (nextQuality q) r2
    else .ok r

/-- `iterativeCompress` when attempts may throw. -/
def iterativeCompressE (oracle : Nat → Except String Nat) (target q0 : Nat) :
    Except String Nat :=
  match oracle q0 with
  | .error e => .error e
  | .ok r => iterLoopE oracle target 5 q0 r

/-- `smartCompress` when attempts may throw: the initial attempt, then — when
a truthy target was missed — the iterative search; any thrown attempt
propagates out (the caller sees a rejection). -/
def smartCompressE (oracle : Nat → Except String Nat) (srcSize target : Nat) :
    Except String Nat :=
  let q0 := selectOptimalQuality srcSize target (1/2)
  match oracle q0 with
  | .error e => .error e
  | .ok r => if target ≠ 0 ∧ r > target then iterativeCompressE oracle target q0 else .ok r

/-! ## Batch compression (`RustyPic.compressBatch`)

Each file is compressed inside a per-file `try`/`catch`; successes are pushed
onto `results`, failures onto `errors` as `{file, error}` records, and after
the loop a final progress callback receives `completed = total = files.length`
together with the `errors` list.  `compressOf` abstracts `this.compress` per
file name. -/

/-- A `BatchProgress` record as passed to the progress callback. -/
structure BatchProgress where
  completed : Nat
  total : Nat
  errs : List (String × String)
deriving DecidableEq

/-- The loop of `compressBatch`, threading the `results` and `errors`
accumulators exactly as the source pushes onto them. -/
def compressBatchLoop (compressOf : String → Except String Nat) :
    List String → List Nat → List (String × String) → List Nat × List (String × String)
  | [], results, errors => (results, errors)
  | f :: fs, results, errors =>
    match compressOf f with
    | .ok r => compressBatchLoop compressOf fs (results ++ [r]) errors
    | .error e => compressBatchLoop compressOf fs results (errors ++ [(f, e)])

/-- `compressBatch`: the resolved value (the successful results in input
order) together with the final progress record. -/
def compressBatch (compressOf : String → Except String Nat) (files : List String) :
    List Nat × BatchProgress :=
  let (results, errors) := compressBatchLoop compressOf files [] []
  (results, ⟨files.length, files.length, errors⟩)

/-! ## Reference rewriting after renames (`generateBundle` rename pass)

`code.split(from).join(to)` replaces the leftmost non-overlapping occurrences
of `from` by `to`, scanning left to right.  `replaceAllGo` embeds that scan;
the fuel argument (instantiated with the text's length, which the scan never
exhausts because every step consumes at least one element) only makes the
recursion structural.  Texts are lists of characters. -/

/-- One left-to-right scan of `text.split(pat).join(rep)`: at each position,
if `pat` matches, emit `rep` and resume after the match, otherwise keep the
element. -/
def replaceAllGo [DecidableEq α] (pat rep : List α) : Nat → List α → List α
  | _, [] => []
  | 0, l => l
  | fuel + 1, c :: rest =>
    if pat ≠ [] ∧ pat <+: (c :: rest) then
      rep ++ replaceAllGo pat rep fuel (rest.drop (pat.length - 1))
    else
      c :: replaceAllGo pat rep fuel rest

/-- `s.split(pat).join(rep)` for a non-empty `pat` (rename sources are
non-empty file names). -/
def replaceAll [DecidableEq α] (pat rep s : List α) : List α :=
  replaceAllGo pat rep s.length s

/-- The rename rewrite pass of `generateBundle` over one text artifact: for
each `{from, to}` of `renameMap` in order, `text = text.split(from).join(to)`. -/
def rewriteAll [DecidableEq α] (entries : List (List α × List α)) (s : List α) : List α :=
  entries.foldl (fun acc e => replaceAll e.1 e.2 acc) s

/-- An output asset record of the bundle, as far as renaming touches it. -/
structure BundleAsset where
  fileName : List Char
  source : List Char

/-- Embeds `(output as any).fileName = newName` at rename registration. -/
def applyRenameName (a : BundleAsset) (newName : List Char) : BundleAsset :=
  { a with fileName := newName }

/-- Non-overlap of a rename source `f` with a rename target `t`: both
non-empty, neither contains the other, no non-empty suffix of `f` starts `t`
and no non-empty prefix of `f` ends `t`.  Under these conditions a substring
replacement inserting `t` can neither contain nor recreate an occurrence
of `f`. -/
def Compatible (f t : List α) : Prop :=
  f ≠ [] ∧ t ≠ [] ∧ ¬ f <:+: t ∧ ¬ t <:+: f ∧
  (∀ v ∈ f.tails, v ≠ [] → ¬ v <+: t) ∧
  (∀ u ∈ f.inits, u ≠ [] → ¬ u <:+ t)

instance {α : Type} [DecidableEq α] (f t : List α) : Decidable (Compatible f t) :=
  inferInstanceAs (Decidable (_ ∧ _ ∧ _ ∧ _ ∧ _ ∧ _))

/-- An occurrence inside a concatenation lies in the left part, in the right
part, or spans the border: a non-empty suffix piece ending the left part glued
to a non-empty prefix piece starting the right part. -/
theorem infix_append_cases {α : Type} {f a b : List α} (h : f <:+: a ++ b) :
    f <:+: a ∨ f <:+: b ∨
      ∃ u v, f = u ++ v ∧ u ≠ [] ∧ v ≠ [] ∧ u <:+ a ∧ v <+: b := by
  obtain ⟨l, r, hlr⟩ := h
  rw [List.append_assoc] at hlr
  rcases List.append_eq_append_iff.mp hlr with ⟨x, hax, hx⟩ | ⟨z, hlz, hbz⟩
  · rcases List.append_eq_append_iff.mp hx with ⟨y, hxy, hr⟩ | ⟨y, hfy, hby⟩
    · left
      refine ⟨l, y, ?_⟩
      rw [hax, hxy, List.append_assoc]
    · by_cases hx0 : x = []
      · right; left
        subst hx0
        rw [List.nil_append] at hfy
        exact (show f <+: b from ⟨r, by rw [hby, hfy]⟩).isInfix
      · by_cases hy0 : y = []
        · left
          subst hy0
          rw [List.append_nil] at hfy
          exact (show f <:+ a from ⟨l, by rw [hax, hfy]⟩).isInfix
        · right; right
          exact ⟨x, y, hfy, hx0, hy0, ⟨l, hax.symm⟩, ⟨r, hby.symm⟩⟩
  · right; left
    exact ⟨z, r, by rw [hbz, List.append_assoc]⟩

/-- Pieces of the protected name `fi` cannot begin inside an inserted
replacement `t`: a prefix of the rewritten text that is a suffix of `fi`
was already a prefix of the original text. -/
theorem suffix_piece_stable {α : Type} [DecidableEq α] {fi t : List α} (pat : List α)
    (hti : ¬ t <:+: fi)
    (hvp : ∀ v ∈ fi.tails, v ≠ [] → ¬ v <+: t) :
    ∀ fuel s v, v <:+ fi → v <+: replaceAllGo pat t fuel s → v <+: s := by
  intro fuel
  induction fuel with
  | zero =>
    intro s v _ hp
    cases s with
    | nil => simpa [replaceAllGo] using hp
    | cons c rest => simpa [replaceAllGo] using hp
  | succ n ih =>
    intro s v hv hp
    cases s with
    | nil => simpa [replaceAllGo] using hp
    | cons c rest =>
      simp only [replaceAllGo] at hp
      by_cases hm : pat ≠ [] ∧ pat <+: (c :: rest)
      · rw [if_pos hm] at hp
        cases v with
        | nil => exact List.nil_prefix
        | cons a v2 =>
          rcases List.prefix_or_prefix_of_prefix hp (List.prefix_append t _) with hvt | htv
          · exact absurd hvt (hvp _ ((List.mem_tails _ _).mpr hv) (by simp))
          · exact absurd (htv.isInfix.trans hv.isInfix) hti
      · rw [if_neg hm] at hp
        cases v with
        | nil => exact List.nil_prefix
        | cons a v2 =>
          rw [List.cons_prefix_cons] at hp
          obtain ⟨rfl, hp2⟩ := hp
          exact List.cons_prefix_cons.mpr
            ⟨rfl, ih rest v2 ((List.suffix_cons a v2).trans hv) hp2⟩

/-- Replacing any pattern by a replacement `t` compatible with `fi` cannot
create an occurrence of `fi` that was not there. -/
theorem not_infix_go_preserve {α : Type} [DecidableEq α] {fi t : List α} (pat : List α)
    (hfi : ¬ fi <:+: t) (hti : ¬ t <:+: fi)
    (hvp : ∀ v ∈ fi.tails, v ≠ [] → ¬ v <+: t)
    (hup : ∀ u ∈ fi.inits, u ≠ [] → ¬ u <:+ t) :
    ∀ fuel s, ¬ fi <:+: s → ¬ fi <:+: replaceAllGo pat t fuel s := by
  intro fuel
  induction fuel with
  | zero =>
    intro s hs
    cases s with
    | nil => simpa [replaceAllGo] using hs
    | cons c rest => simpa [replaceAllGo] using hs
  | succ n ih =>
    intro s hs
    cases s with
    | nil => simpa [replaceAllGo] using hs
    | cons c rest =>
      intro hinf
      simp only [replaceAllGo] at hinf
      by_cases hm : pat ≠ [] ∧ pat <+: (c :: rest)
      · rw [if_pos hm] at hinf
        rcases infix_append_cases hinf with h1 | h2 | ⟨u, v, hfuv, hu0, _, hut, _⟩
        · exact hfi h1
        · refine ih _ ?_ h2
          intro hd
          exact hs (hd.trans
            (((List.drop_suffix _ rest).trans (List.suffix_cons c rest)).isInfix))
        · exact hup u ((List.mem_inits _ _).mpr ⟨v, hfuv.symm⟩) hu0 hut
      · rw [if_neg hm] at hinf
        rcases List.infix_cons_iff.mp hinf with hpre | hsub
        · cases fi with
          | nil => exact hs List.nil_infix
          | cons a fi2 =>
            rw [List.cons_prefix_cons] at hpre
            obtain ⟨rfl, hp2⟩ := hpre
            have hfi2 : fi2 <+: rest :=
              suffix_piece_stable pat hti hvp n rest fi2 (List.suffix_cons a fi2) hp2
            exact hs (List.IsPrefix.isInfix (List.cons_prefix_cons.mpr ⟨rfl, hfi2⟩))
        · exact ih rest (fun hr => hs (hr.trans (List.suffix_cons c rest).isInfix)) hsub

/-- After one full replacement scan of `f` by a compatible `t`, no occurrence
of `f` remains. -/
theorem not_infix_go_self {α : Type} [DecidableEq α] {f t : List α}
    (hf : f ≠ []) (hft : ¬ f <:+: t) (htf : ¬ t <:+: f)
    (hvp : ∀ v ∈ f.tails, v ≠ [] → ¬ v <+: t)
    (hup : ∀ u ∈ f.inits, u ≠ [] → ¬ u <:+ t) :
    ∀ fuel s, s.length ≤ fuel → ¬ f <:+: replaceAllGo f t fuel s := by
  intro fuel
  induction fuel with
  | zero =>
    intro s hlen hinf
    have hs : s = [] := List.length_eq_zero.mp (Nat.le_zero.mp hlen)
    subst hs
    simp only [replaceAllGo] at hinf
    exact hf (List.infix_nil.mp hinf)
  | succ n ih =>
    intro s hlen hinf
    cases s with
    | nil =>
      simp only [replaceAllGo] at hinf
      exact hf (List.infix_nil.mp hinf)
    | cons c rest =>
      simp only [replaceAllGo] at hinf
      by_cases hm : f ≠ [] ∧ f <+: (c :: rest)
      · rw [if_pos hm] at hinf
        rcases infix_append_cases hinf with h1 | h2 | ⟨u, v, hfuv, hu0, _, hut, _⟩
        · exact hft h1
        · have hd : (rest.drop (f.length - 1)).length ≤ n := by
            simp only [List.length_drop]
            simp only [List.length_cons] at hlen
            omega
          exact ih _ hd h2
        · exact hup u ((List.mem_inits _ _).mpr ⟨v, hfuv.symm⟩) hu0 hut
      · have hnp : ¬ f <+: (c :: rest) := fun hp => hm ⟨hf, hp⟩
        rw [if_neg hm] at hinf
        rcases List.infix_cons_iff.mp hinf with hpre | hsub
        · cases f with
          | nil => exact hf rfl
          | cons a f2 =>
            rw [List.cons_prefix_cons] at hpre
            obtain ⟨rfl, hp2⟩ := hpre
            have hf2 : f2 <+: rest :=
              suffix_piece_stable (a :: f2) htf hvp n rest f2 (List.suffix_cons a f2) hp2
            exact hnp (List.cons_prefix_cons.mpr ⟨rfl, hf2⟩)
        · have hr : rest.length ≤ n := by
            simp only [List.length_cons] at hlen
            omega
          exact ih rest hr hsub

/-- `replaceAll f t` removes every occurrence of `f` when `f` and `t` do not
overlap. -/
theorem not_infix_replaceAll_self {α : Type} [DecidableEq α] {f t : List α}
    (hc : Compatible f t) (s : List α) : ¬ f <:+: replaceAll f t s := by
  obtain ⟨hf, _, hft, htf, hvp, hup⟩ := hc
  exact not_infix_go_self hf hft htf hvp hup s.length s le_rfl

/-- `replaceAll pat t` cannot introduce an occurrence of a name `fi` that is
compatible with the inserted `t`. -/
theorem not_infix_replaceAll_preserve {α : Type} [DecidableEq α] {fi t : List α}
    (pat : List α) (hc : Compatible fi t) {s : List α}
    (hs : ¬ fi <:+: s) : ¬ fi <:+: replaceAll pat t s := by
  obtain ⟨_, _, hfi, hti, hvp, hup⟩ := hc
  exact not_infix_go_preserve pat hfi hti hvp hup s.length s hs

/-- One fold step of the rewrite pass. -/
theorem rewriteAll_cons {α : Type} [DecidableEq α] (e : List α × List α)
    (l : List (List α × List α)) (s : List α) :
    rewriteAll (e :: l) s = rewriteAll l (replaceAll e.1 e.2 s) := rfl

/-- The whole rewrite pass cannot introduce an occurrence of a name compatible
with every replacement it inserts. -/
theorem not_infix_rewriteAll_preserve {α : Type} [DecidableEq α] {fi : List α} :
    ∀ (entries : List (List α × List α)) (s : List α),
      (∀ e ∈ entries, Compatible fi e.2) → ¬ fi <:+: s → ¬ fi <:+: rewriteAll entries s := by
  intro entries
  induction entries with
  | nil => intro s _ hs; simpa [rewriteAll] using hs
  | cons e rest ih =>
    intro s hc hs
    rw [rewriteAll_cons]
    exact ih _ (fun x hx => hc x (List.mem_cons_of_mem e hx))
      (not_infix_replaceAll_preserve e.1 (hc e (List.mem_cons_self e rest)) hs)

/-- After the rewrite pass, no rename source occurs in the text, provided
every rename source is compatible with every rename target of the batch. -/
theorem rewriteAll_removes_sources {α : Type} [DecidableEq α] :
    ∀ (entries : List (List α × List α)) (s : List α),
      (∀ e1 ∈ entries, ∀ e2 ∈ entries, Compatible e1.1 e2.2) →
      ∀ e ∈ entries, ¬ e.1 <:+: rewriteAll entries s := by
  intro entries
  induction entries with
  | nil => intro s _ e he; exact absurd he (List.not_mem_nil e)
  | cons e0 rest ih =>
    intro s hc e he
    rw [rewriteAll_cons]
    rcases List.mem_cons.mp he with rfl | hr
    · exact not_infix_rewriteAll_preserve rest _
        (fun x hx => hc e (List.mem_cons_self e rest) x (List.mem_cons_of_mem e hx))
        (not_infix_replaceAll_self
          (hc e (List.mem_cons_self e rest) e (List.mem_cons_self e rest)) s)
    · exact ih (replaceAll e0.1 e0.2 s)
        (fun x hx y hy => hc x (List.mem_cons_of_mem e0 hx) y (List.mem_cons_of_mem e0 hy))
        e hr

/-- Claim C3: with the transcode option disabled, the resolved output format
equals the asset's original filename extension for every configured target
format, and no rename entry is registered. -/
theorem transcode_disabled_keeps_format (format name : String) :
    effectiveFormat format false (extractExt name) = extractExt name ∧
    renameNeeded false (effectiveFormat format false (extractExt name)) (extractExt name)
      = false := by
  constructor
  · unfold effectiveFormat
    by_cases h : format = "auto"
    · simp [h]
    · by_cases h2 : lowerStr format ≠ extractExt name
      · simp [h, h2]
      · push_neg at h2
        simp [h, h2]
  · simp [renameNeeded]

/-- Claim C6, counterexample: two assets with identical bytes and identical
configured options but different extensions resolve to different effective
formats, yet their cache-key digest inputs coincide — so a change of the
effective options does not change the key input, contrary to the claim. -/
theorem cacheKey_ignores_effectiveFormat :
    effectiveFormat ("auto") false (extractExt ("a.png"))
        ≠ effectiveFormat ("auto") false (extractExt ("a.jpg")) ∧
    getCacheKeyInput ("a.png") [1, 2, 3] ⟨80, "auto", none, ⟨true, false, false⟩⟩ =
      getCacheKeyInput ("a.jpg") [1, 2, 3] ⟨80, "auto", none, ⟨true, false, false⟩⟩ := by
  constructor
  · decide
  · rfl

/-- Claim C6, amended: the cache-key digest input is a deterministic function
of the raw asset bytes and the configured plugin options alone; the file path
(and with it the asset's extension, hence the effective format) does not enter
the key. -/
theorem cacheKey_path_independent (p1 p2 : String) (content : List Nat) (o : PluginOpts) :
    getCacheKeyInput p1 content o = getCacheKeyInput p2 content o := rfl

/-- Claim C9, counterexample: at a ratio of exactly 0.8 (target 4, size 5) the
code returns quality 75, not 90 — the band bounds are strict, not inclusive. -/
theorem quality_band_strict_at_point8 :
    (4 : ℚ) / 5 = 0.8 ∧ selectOptimalQuality 5 4 (1/2) = 75 := by
  constructor
  · norm_num
  · norm_num [selectOptimalQuality]

/-- Claim C9, amended: the initial quality is banded with strict lower
bounds: ratio > 0.8 yields 90, 0.5 < ratio ≤ 0.8 yields 75,
0.3 < ratio ≤ 0.5 yields 60, ratio ≤ 0.3 yields 45; in particular a ratio of
exactly 0.8 yields 75. -/
theorem quality_bands (size target : Nat) (c : ℚ) (hs : size ≠ 0) (ht : target ≠ 0) :
    (4/5 < (target : ℚ) / (size : ℚ) → selectOptimalQuality size target c = 90) ∧
    (1/2 < (target : ℚ) / (size : ℚ) ∧ (target : ℚ) / (size : ℚ) ≤ 4/5 →
      selectOptimalQuality size target c = 75) ∧
    (3/10 < (target : ℚ) / (size : ℚ) ∧ (target : ℚ) / (size : ℚ) ≤ 1/2 →
      selectOptimalQuality size target c = 60) ∧
    ((target : ℚ) / (size : ℚ) ≤ 3/10 → selectOptimalQuality size target c = 45) := by
  unfold selectOptimalQuality
  rw [if_pos ht, if_neg hs]
  dsimp only
  split_ifs with h1 h2 h3
  · exact ⟨fun _ => rfl,
      fun hh => absurd h1 (not_lt.mpr hh.2),
      fun hh => absurd h1 (not_lt.mpr (hh.2.trans (by norm_num))),
      fun hh => absurd h1 (not_lt.mpr (hh.trans (by norm_num)))⟩
  · exact ⟨fun hh => absurd hh h1,
      fun _ => rfl,
      fun hh => absurd h2 (not_lt.mpr hh.2),
      fun hh => absurd h2 (not_lt.mpr (hh.trans (by norm_num)))⟩
  · exact ⟨fun hh => absurd hh h1,
      fun hh => absurd hh.1 h2,
      fun _ => rfl,
      fun hh => absurd h3 (not_lt.mpr hh)⟩
  · exact ⟨fun hh => absurd hh h1,
      fun hh => absurd hh.1 h2,
      fun hh => absurd hh.1 h3,
      fun _ => rfl⟩

/-- Witness for the amended quality-band theorem at size 5, target 4. -/
theorem quality_bands_witness : (5 : Nat) ≠ 0 ∧ selectOptimalQuality 5 4 (1/2) = 75 :=
  ⟨by decide,
    (quality_bands 5 4 (1/2) (by decide) (by decide)).2.1 (by norm_num)⟩

/-- The `try` block leaves the original bytes, or strictly smaller replacement
bytes — whatever the cache-write outcome. -/
theorem freshCompress_cases (original : List Nat) (comp : Except String (List Nat))
    (write : Except String Unit) :
    freshCompress original comp write = original ∨
      (freshCompress original comp write).length < original.length := by
  cases comp with
  | error e => exact Or.inl rfl
  | ok r =>
    simp only [freshCompress]
    by_cases h : r.length < original.length
    · rw [if_pos h]
      cases write with
      | error e => exact Or.inr h
      | ok u => exact Or.inr h
    · rw [if_neg h]
      exact Or.inl rfl

/-- Claim C1, counterexample: on the cache-hit path, cached bytes whose length
equals the original's replace the stored source — the replacement is of equal
size and differs from the original, contradicting the strict size gate the
claim states for the cache-hit path. -/
theorem cacheHit_equal_size_replaces :
    processAsset [0, 1] (some (.ok [2, 3])) (.ok []) (.ok ()) = .ok [2, 3] ∧
    ([2, 3] : List Nat) ≠ [0, 1] ∧
    ¬ ([2, 3] : List Nat).length < ([0, 1] : List Nat).length :=
  ⟨rfl, by decide, by decide⟩

/-- Claim C1, amended: the stored bytes after `generateBundle` are never
larger than the original — the cache-hit path accepts a cached entry of size
less than or equal to the original, while the fresh-compression path replaces
only with strictly smaller bytes (otherwise the original is retained). -/
theorem size_gate :
    (∀ (original : List Nat) (cacheRead : Option (Except String (List Nat)))
        (comp : Except String (List Nat)) (write : Except String Unit) (s : List Nat),
        processAsset original cacheRead comp write = .ok s →
          s.length ≤ original.length) ∧
    (∀ (original : List Nat) (comp : Except String (List Nat))
        (write : Except String Unit) (s : List Nat),
        processAsset original none comp write = .ok s →
          s = original ∨ s.length < original.length) := by
  have hfresh : ∀ original comp write s,
      freshCompress original comp write = s → s = original ∨ s.length < original.length := by
    intro original comp write s hs
    rcases freshCompress_cases original comp write with h | h
    · exact Or.inl (hs ▸ h)
    · exact Or.inr (hs ▸ h)
  constructor
  · intro original cacheRead comp write s h
    cases cacheRead with
    | none =>
      simp only [processAsset, Except.ok.injEq] at h
      rcases hfresh original comp write s h with heq | hlt
      · exact le_of_eq (by rw [heq])
      · exact le_of_lt hlt
    | some r =>
      cases r with
      | error e => exact absurd h (by simp [processAsset])
      | ok c =>
        simp only [processAsset] at h
        by_cases hle : c.length ≤ original.length
        · rw [if_pos hle] at h
          have hcs : c = s := by injection h
          rw [← hcs]
          exact hle
        · rw [if_neg hle] at h
          have h2 : freshCompress original comp write = s := by injection h
          rcases hfresh original comp write s h2 with heq | hlt
          · exact le_of_eq (by rw [heq])
          · exact le_of_lt hlt
  · intro original comp write s h
    simp only [processAsset, Except.ok.injEq] at h
    exact hfresh original comp write s h

/-- Witness for the amended size-gate theorem on a concrete fresh compression. -/
theorem size_gate_witness :
    processAsset [5, 6] none (.ok [7]) (.ok ()) = .ok [7] ∧
    ([7] : List Nat).length ≤ ([5, 6] : List Nat).length :=
  ⟨rfl, size_gate.1 [5, 6] none (.ok [7]) (.ok ()) [7] rfl⟩

/-- A non-throwing cache probe makes the loop body total: it returns the bytes
`assetBytesAfter` describes. -/
theorem processAsset_ok (original : List Nat) (cacheRead : Option (Except String (List Nat)))
    (comp : Except String (List Nat)) (write : Except String Unit)
    (h : readOk cacheRead = true) :
    processAsset original cacheRead comp write =
      .ok (assetBytesAfter original (cacheHit cacheRead) comp write) := by
  cases cacheRead with
  | none => rfl
  | some r =>
    cases r with
    | error e => exact absurd h (by simp [readOk])
    | ok c =>
      simp only [processAsset, assetBytesAfter, cacheHit]
      by_cases hle : c.length ≤ original.length
      · rw [if_pos hle, if_pos hle]
      · rw [if_neg hle, if_neg hle]

/-- Claim C7: when no cache probe throws, the pass returns normally with every
asset's bytes; an asset whose compression attempt throws keeps its original
bytes unless an accepted cache hit made the attempt unnecessary. -/
theorem compression_failure_recovered (l : List AssetIn)
    (hread : ∀ a ∈ l, readOk a.cacheRead = true) :
    generateBundlePass l =
      .ok (l.map (fun a => assetBytesAfter a.original (cacheHit a.cacheRead) a.comp a.write)) ∧
    (∀ a ∈ l, ∀ e, a.comp = .error e →
      assetBytesAfter a.original (cacheHit a.cacheRead) a.comp a.write = a.original ∨
      ∃ c, cacheHit a.cacheRead = some c ∧ c.length ≤ a.original.length ∧
        assetBytesAfter a.original (cacheHit a.cacheRead) a.comp a.write = c) := by
  constructor
  · induction l with
    | nil => rfl
    | cons a rest ih =>
      have ha := hread a (List.mem_cons_self a rest)
      have hrest := ih (fun x hx => hread x (List.mem_cons_of_mem a hx))
      simp only [generateBundlePass, processAsset_ok a.original a.cacheRead a.comp a.write ha,
        hrest, List.map_cons]
  · intro a _ e hcomp
    cases hh : cacheHit a.cacheRead with
    | none =>
      left
      simp only [assetBytesAfter, hcomp, freshCompress]
    | some c =>
      by_cases hle : c.length ≤ a.original.length
      · right
        refine ⟨c, rfl, hle, ?_⟩
        simp only [assetBytesAfter, if_pos hle]
      · left
        simp only [assetBytesAfter, if_neg hle, hcomp, freshCompress]

/-- Witness for the compression-failure theorem: a bundle whose first asset
fails to compress still yields a full pass, the failed asset keeping its
original bytes. -/
theorem compression_failure_recovered_witness :
    generateBundlePass
      [⟨[1, 2], none, .error "boom", .ok ()⟩, ⟨[3, 4, 5], none, .ok [9], .ok ()⟩] =
      .ok [[1, 2], [9]] := by
  have h := (compression_failure_recovered
    [⟨[1, 2], none, .error "boom", .ok ()⟩, ⟨[3, 4, 5], none, .ok [9], .ok ()⟩]
    (by decide)).1
  simpa using h

/-- Claim C8, counterexample: a throwing cache read propagates out of the
`generateBundle` pass (while the same asset on a cache miss succeeds), so a
cache read failure is not degraded to a miss. -/
theorem cache_read_failure_propagates :
    generateBundlePass [⟨[1, 2, 3], some (.error "EACCES"), .ok [1], .ok ()⟩] =
      .error "EACCES" ∧
    generateBundlePass [⟨[1, 2, 3], none, .ok [1], .ok ()⟩] = .ok [[1]] :=
  ⟨rfl, rfl⟩

/-- Claim C8, amended: a failing cache write is non-fatal and invisible — the
loop body returns exactly what it returns when the write succeeds (the
compression result is kept, merely not cached); only the cache read can make
the pass fail. -/
theorem cache_write_failure_harmless (original : List Nat)
    (cacheRead : Option (Except String (List Nat))) (comp : Except String (List Nat))
    (e : String) :
    processAsset original cacheRead comp (.error e) =
      processAsset original cacheRead comp (.ok ()) := by
  have hfresh : freshCompress original comp (.error e) = freshCompress original comp (.ok ()) := by
    cases comp with
    | error e2 => rfl
    | ok r => rfl
  cases cacheRead with
  | none => simp only [processAsset, hfresh]
  | some r =>
    cases r with
    | error e2 => rfl
    | ok c => simp only [processAsset, hfresh]

/-- The retry loop makes at most `fuel` further attempts. -/
theorem retryQualities_length (sizeOf : Nat → Nat) (target : Nat) :
    ∀ fuel q, (retryQualities sizeOf target fuel q).length ≤ fuel := by
  intro fuel
  induction fuel with
  | zero => intro q; simp [retryQualities]
  | succ n ih =>
    intro q
    simp only [retryQualities]
    by_cases h : sizeOf q ≤ target
    · rw [if_pos h]
      simp
    · rw [if_neg h]
      simp only [List.length_cons]
      exact Nat.succ_le_succ (ih _)

/-- Along the attempt sequence, every retry quality is the 15-decrement
(floored at 10) of its predecessor, and a retry happens only when the
predecessor overshot the target. -/
theorem retryQualities_chain (sizeOf : Nat → Nat) (target : Nat) :
    ∀ fuel q, List.Chain' (fun a b => b = nextQuality a ∧ sizeOf a > target)
      (q :: retryQualities sizeOf target fuel q) := by
  intro fuel
  induction fuel with
  | zero => intro q; simp [retryQualities]
  | succ n ih =>
    intro q
    by_cases h : sizeOf q ≤ target
    · simp [retryQualities, h]
    · have hr : retryQualities sizeOf target (n + 1) q =
          nextQuality q :: retryQualities sizeOf target n (nextQuality q) := by
        simp [retryQualities, h]
      rw [hr]
      exact List.Chain'.cons ⟨rfl, Nat.lt_of_not_le h⟩ (ih (nextQuality q))

/-- Claim C4: the size-budget search makes at most 6 attempts — the initial
one plus at most 5 retries; each retry quality is `max 10 (previous - 15)`; a
retry is made only when the previous attempt exceeded the target; and the
returned result is the one of the last attempt. -/
theorem budget_search_bound (sizeOf : Nat → Nat) (q0 target : Nat) :
    (iterAttempts sizeOf q0 target).length ≤ 6 ∧
    (iterAttempts sizeOf q0 target).head? = some q0 ∧
    List.Chain' (fun a b => b = nextQuality a ∧ sizeOf a > target)
      (iterAttempts sizeOf q0 target) ∧
    iterativeCompress sizeOf q0 target =
      sizeOf ((iterAttempts sizeOf q0 target).getLastD q0) :=
  ⟨by
    have h := retryQualities_length sizeOf target 5 q0
    simp only [iterAttempts, List.length_cons]
    omega,
   rfl,
   retryQualities_chain sizeOf target 5 q0,
   rfl⟩

/-- The last element of a list with at least two elements ignores both the
default and the head. -/
theorem getLastD_cons_cons {α : Type} (a b : α) (l : List α) (d e : α) :
    (a :: b :: l).getLastD d = (b :: l).getLastD e := by
  rw [List.getLastD_cons, List.getLastD_cons, List.getLastD_cons]

/-- When every attempt succeeds, the throwing retry loop computes the size of
the last attempted quality. -/
theorem iterLoopE_ok (oracle : Nat → Except String Nat) (sizeOf : Nat → Nat)
    (target : Nat) (hok : ∀ q, oracle q = .ok (sizeOf q)) :
    ∀ fuel q, iterLoopE oracle target fuel q (sizeOf q) =
      .ok (sizeOf ((q :: retryQualities sizeOf target fuel q).getLastD q)) := by
  intro fuel
  induction fuel with
  | zero => intro q; simp [iterLoopE, retryQualities]
  | succ n ih =>
    intro q
    simp only [iterLoopE]
    by_cases h : sizeOf q > target
    · rw [if_pos h, hok (nextQuality q)]
      have hr : retryQualities sizeOf target (n + 1) q =
          nextQuality q :: retryQualities sizeOf target n (nextQuality q) := by
        simp [retryQualities, Nat.not_le.mpr h]
      rw [hr]
      show iterLoopE oracle target n (nextQuality q) (sizeOf (nextQuality q)) = _
      rw [ih (nextQuality q),
        getLastD_cons_cons q (nextQuality q)
          (retryQualities sizeOf target n (nextQuality q)) q (nextQuality q)]
    · rw [if_neg h]
      have hr : retryQualities sizeOf target (n + 1) q = [] := by
        simp [retryQualities, Nat.not_lt.mp h]
      simp [hr]

/-- The throwing retry loop fails only when an attempt fails. -/
theorem iterLoopE_error (oracle : Nat → Except String Nat) (target : Nat) :
    ∀ fuel q r e, iterLoopE oracle target fuel q r = .error e →
      ∃ q2, oracle q2 = .error e := by
  intro fuel
  induction fuel with
  | zero =>
    intro q r e h
    exact absurd h (by simp [iterLoopE])
  | succ n ih =>
    intro q r e h
    simp only [iterLoopE] at h
    by_cases hc : r > target
    · rw [if_pos hc] at h
      cases ho : oracle (nextQuality q) with
      | error e2 =>
        rw [ho] at h
        refine ⟨nextQuality q, ?_⟩
        rw [ho]
        simpa using h
      | ok r2 =>
        rw [ho] at h
        exact ih (nextQuality q) r2 e (by simpa using h)
    · rw [if_neg hc] at h
      exact absurd h (by simp)

/-- Claim C5: when every underlying compression attempt succeeds,
`smartCompress` with a target size returns normally with the result of the
final attempt — if no attempt meets the target the returned size still
exceeds it; and `smartCompress` fails only when an underlying attempt
itself fails. -/
theorem optimizer_no_throw (oracle : Nat → Except String Nat) (sizeOf : Nat → Nat)
    (srcSize target : Nat) :
    ((∀ q, oracle q = .ok (sizeOf q)) →
      smartCompressE oracle srcSize target = .ok (smartCompressSize sizeOf srcSize target) ∧
      ((∀ q, sizeOf q > target) → smartCompressSize sizeOf srcSize target > target)) ∧
    (∀ e, smartCompressE oracle srcSize target = .error e →
      ∃ q, oracle q = .error e) := by
  constructor
  · intro hok
    constructor
    · simp only [smartCompressE, smartCompressSize, hok]
      by_cases hcond : target ≠ 0 ∧ sizeOf (selectOptimalQuality srcSize target (1/2)) > target
      · rw [if_pos hcond, if_pos hcond]
        simp only [iterativeCompressE, iterativeCompress, iterAttempts, hok]
        exact iterLoopE_ok oracle sizeOf target hok 5 _
      · rw [if_neg hcond, if_neg hcond]
    · intro hmiss
      simp only [smartCompressSize]
      by_cases hcond : target ≠ 0 ∧ sizeOf (selectOptimalQuality srcSize target (1/2)) > target
      · rw [if_pos hcond]
        exact hmiss _
      · rw [if_neg hcond]
        exact hmiss _
  · intro e h
    simp only [smartCompressE] at h
    cases ho : oracle (selectOptimalQuality srcSize target (1/2)) with
    | error e2 =>
      rw [ho] at h
      refine ⟨selectOptimalQuality srcSize target (1/2), ?_⟩
      rw [ho]
      simpa using h
    | ok r =>
      rw [ho] at h
      simp only [] at h
      by_cases hcond : target ≠ 0 ∧ r > target
      · rw [if_pos hcond] at h
        simp only [iterativeCompressE] at h
        cases ho2 : oracle (selectOptimalQuality srcSize target (1/2)) with
        | error e2 =>
          rw [ho2] at h
          refine ⟨selectOptimalQuality srcSize target (1/2), ?_⟩
          rw [ho2]
          simpa using h
        | ok r2 =>
          rw [ho2] at h
          exact iterLoopE_error oracle target 5 _ r2 e (by simpa using h)
      · rw [if_neg hcond] at h
        exact absurd h (by simp)

/-- Witness for the optimizer theorem: a 2 MiB source with a 100 KiB target
that no attempt can meet still yields a normal return whose reported size
exceeds the target. -/
theorem optimizer_no_throw_witness :
    smartCompressE (fun _ => .ok 200000) 2097152 102400 =
      .ok (smartCompressSize (fun _ => 200000) 2097152 102400) ∧
    smartCompressSize (fun _ => 200000) 2097152 102400 > 102400 := by
  have h := (optimizer_no_throw (fun _ => .ok 200000) (fun _ => 200000) 2097152 102400).1
    (fun q => rfl)
  exact ⟨h.1, h.2 (fun q => by decide)⟩

/-- The batch loop appends the successes and the failures of the remaining
files to the running accumulators, in input order. -/
theorem compressBatchLoop_spec (compressOf : String → Except String Nat) :
    ∀ (files : List String) (rs : List Nat) (es : List (String × String)),
      compressBatchLoop compressOf files rs es =
        (rs ++ files.filterMap (fun f => (compressOf f).toOption),
         es ++ files.filterMap (fun f =>
           match compressOf f with
           | .error e => some (f, e)
           | .ok _ => none)) := by
  intro files
  induction files with
  | nil =>
    intro rs es
    simp [compressBatchLoop]
  | cons f fs ih =>
    intro rs es
    cases hc : compressOf f with
    | ok r =>
      simp only [compressBatchLoop, hc]
      rw [ih]
      simp [hc, Except.toOption, List.filterMap_cons]
    | error e =>
      simp only [compressBatchLoop, hc]
      rw [ih]
      simp [hc, Except.toOption, List.filterMap_cons]

/-- Each input file contributes to exactly one of the two outcome lists. -/
theorem filterMap_outcome_length (compressOf : String → Except String Nat) :
    ∀ fs : List String,
      (fs.filterMap (fun f => (compressOf f).toOption)).length +
        (fs.filterMap (fun f =>
          match compressOf f with
          | .error e => some (f, e)
          | .ok _ => none)).length = fs.length := by
  intro fs
  induction fs with
  | nil => rfl
  | cons f fs ih =>
    cases hc : compressOf f <;>
      simp only [List.filterMap_cons, hc, Except.toOption, List.length_cons] at ih ⊢ <;>
      omega

/-- Claim C10: `compressBatch` always resolves; the returned results are
exactly the successes in input order, the final progress callback receives
`completed = total = files.length` along with one `(file, error)` record per
failed file in input order, and successes and failures partition the input. -/
theorem batch_errors_isolated (compressOf : String → Except String Nat)
    (files : List String) :
    (compressBatch compressOf files).1 =
      files.filterMap (fun f => (compressOf f).toOption) ∧
    (compressBatch compressOf files).2.errs =
      files.filterMap (fun f =>
        match compressOf f with
        | .error e => some (f, e)
        | .ok _ => none) ∧
    (compressBatch compressOf files).2.completed = files.length ∧
    (compressBatch compressOf files).2.total = files.length ∧
    (compressBatch compressOf files).1.length +
      (compressBatch compressOf files).2.errs.length = files.length := by
  have hspec := compressBatchLoop_spec compressOf files [] []
  simp only [List.nil_append] at hspec
  refine ⟨?_, ?_, ?_, ?_, ?_⟩ <;>
    simp only [compressBatch, hspec]
  exact filterMap_outcome_length compressOf files

/-- Claim C2, counterexample: with rename entries `f.png → f.avif` and
`x.png → x.avif` (the shape the plugin produces in a single
`format:'avif'` transcoding build: same base name, new extension, recorded in
bundle iteration order), rewriting the chunk text `x.png.png` yields
`x.avif.png`, which contains the renamed-from name `f.png` — the
zero-occurrence invariant fails for this set of names. -/
theorem rename_rewrite_leaves_occurrence :
    ("f.png").toList <:+:
      rewriteAll
        [(("f.png").toList, ("f.avif").toList), (("x.png").toList, ("x.avif").toList)]
        (("x.png.png").toList) := by decide

/-- Claim C2, amended: when every renamed-from name is non-overlapping with
every renamed-to name (`Compatible`: neither contains the other and no
non-empty edge piece of the one is an edge piece of the other), the rewrite
pass leaves zero occurrences of any renamed-from name in the text, and the
renamed asset record itself carries the new file name. -/
theorem rename_referential_integrity (entries : List (List Char × List Char))
    (s : List Char)
    (hcompat : ∀ e1 ∈ entries, ∀ e2 ∈ entries, Compatible e1.1 e2.2) :
    (∀ e ∈ entries, ¬ e.1 <:+: rewriteAll entries s) ∧
    ∀ (a : BundleAsset) (n : List Char), (applyRenameName a n).fileName = n :=
  ⟨rewriteAll_removes_sources entries s hcompat, fun _ _ => rfl⟩

/-- Witness for the rename-integrity theorem: a single compatible rename
`a.png → a.webp` cleans the text `x a.png y`. -/
theorem rename_referential_integrity_witness :
    ¬ ("a.png").toList <:+:
      rewriteAll [(("a.png").toList, ("a.webp").toList)] (("x a.png y").toList) :=
  (rename_referential_integrity [(("a.png").toList, ("a.webp").toList)]
    (("x a.png y").toList) (by decide)).1
    (("a.png").toList, ("a.webp").toList) (by decide)

end RustyPic
